import Mathlib

/-!
# Verification of the noir-ivc bridge compiler

A shallow embedding of the core of the `noir-ivc` crate: the field bridge
(`src/field.rs`), the arithmetic-gate model (`src/gate.rs`), the IO-profile
extractor and the gate-to-R1CS expansion (`src/program.rs`), and the step
execution engine (`src/execute.rs`).

Machine integers (`u32` witness identifiers, `usize` lengths) are modelled as
`Nat`; none of the modelled code relies on wrap-around.  `BTreeMap` witnesses
are modelled as association lists whose key lists are duplicate-free;
`BTreeSet`s of witness identifiers are modelled as `Finset Nat`.  A Rust
`panic!` / failed `assert!` / `expect` is modelled as the `none` branch of an
`Option` result (or as a dedicated `panic` outcome where the distinction
between a returned error value and a process abort matters).
-/

namespace NoirIVC

/-- The order of the BN254 scalar field: both numeric encodings bridged by
`src/field.rs` (`ark_bn254::Fr` and `halo2curves::bn256::Fr`) represent
residues of this prime. -/
def pBN : ℕ :=
  21888242871839275222246405745257275088548364400416034343698204186575808495617

instance : NeZero pBN := ⟨by norm_num [pBN]⟩

/-- Field elements of the solver-side encoding (encoding A, `ark_bn254::Fr`),
modelled by their residue. -/
abbrev FieldA := ZMod pBN

/-- Field elements of the system-side encoding (encoding B,
`halo2curves::bn256::Fr`), modelled by their residue. -/
abbrev FieldB := ZMod pBN

/-- Embeds `generic_ark_ff_to_prime_field` of `src/field.rs`: zero is
special-cased; a non-zero value is rendered as the decimal digit string of its
canonical representative (`into_repr`, modelled by `Nat.digits 10 ∘ ZMod.val`)
and re-parsed by the target encoding's decimal constructor
(`from_str_vartime`, modelled by `Nat.ofDigits 10` followed by reduction into
the field).  The Rust `Result` error branch fires only when the re-parse
fails, which cannot happen on a digit string, so the embedding is total. -/
def generic_ark_ff_to_prime_field (input : FieldA) : FieldB :=
  if input = 0 then 0
  else ((Nat.ofDigits 10 (Nat.digits 10 input.val) : ℕ) : ZMod pBN)

/-- Embeds `ff_to_ark_prime_field` of `src/field.rs`: zero is special-cased; a
non-zero value is rendered as the hexadecimal debug string of its canonical
representative, parsed as a big integer (`from_str_radix(_, 16)`), re-rendered
in decimal, and parsed by the target encoding's decimal constructor
(`from_str`).  The two textual round trips are modelled by
`Nat.ofDigits 16 ∘ Nat.digits 16` and `Nat.ofDigits 10 ∘ Nat.digits 10`. -/
def ff_to_ark_prime_field (input : FieldB) : FieldA :=
  if input = 0 then 0
  else
    let bn : ℕ := Nat.ofDigits 16 (Nat.digits 16 input.val)
    ((Nat.ofDigits 10 (Nat.digits 10 bn) : ℕ) : ZMod pBN)

lemma generic_ark_ff_to_prime_field_eq (x : FieldA) :
    generic_ark_ff_to_prime_field x = x := by
  by_cases h : x = 0
  · simp [generic_ark_ff_to_prime_field, h]
  · rw [generic_ark_ff_to_prime_field, if_neg h, Nat.ofDigits_digits]
    exact ZMod.natCast_rightInverse x

lemma ff_to_ark_prime_field_eq (x : FieldB) : ff_to_ark_prime_field x = x := by
  by_cases h : x = 0
  · simp [ff_to_ark_prime_field, h]
  · rw [ff_to_ark_prime_field, if_neg h]
    simp only [Nat.ofDigits_digits]
    exact ZMod.natCast_rightInverse x

/-- C6: for every field element, converting from encoding B to encoding A and
back yields the element again, and converting from encoding A to encoding B
and back yields the element again (`toEncodingA = ff_to_ark_prime_field`,
`toEncodingB = generic_ark_ff_to_prime_field`); in particular this holds for
zero, one, small values and the field's minus one, which are instances of the
universally quantified statement. -/
theorem field_bridge_roundtrip (x : FieldB) (y : FieldA) :
    generic_ark_ff_to_prime_field (ff_to_ark_prime_field x) = x ∧
    ff_to_ark_prime_field (generic_ark_ff_to_prime_field y) = y :=
  ⟨by rw [ff_to_ark_prime_field_eq, generic_ark_ff_to_prime_field_eq],
   by rw [generic_ark_ff_to_prime_field_eq, ff_to_ark_prime_field_eq]⟩

/-! ## Arithmetic gate model (`src/gate.rs`) -/

/-- Embeds `AcirArithGate<F>` of `src/gate.rs`: the canonical quadratic gate
`Σ coeff·w[left]·w[right] + Σ coeff·w[id] + constant = 0`.  Witness
identifiers (`WitnessID(u32)`) are modelled as `Nat`. -/
structure AcirArithGate (F : Type) where
  mul_terms : List (F × ℕ × ℕ)
  add_terms : List (F × ℕ)
  constant_term : F
deriving DecidableEq

/-- Embeds the `acvm` `Opcode` type as consumed by `src/gate.rs`: the
supported `AssertZero` variant carries an `Expression` (its `mul_terms`,
`linear_combinations` and `q_c` fields, inlined here); every other opcode
kind is collapsed into one `Unsupported` constructor, since `From<Opcode>`
treats them all alike (it panics). -/
inductive Opcode (F : Type) where
  | AssertZero (mul_terms : List (F × ℕ × ℕ)) (linear_combinations : List (F × ℕ))
      (q_c : F)
  | Unsupported
deriving DecidableEq

/-- Embeds `From<AcirArithGate<F>> for Opcode` of `src/gate.rs`: every
coefficient crosses the field bridge via `ff_to_ark_prime_field` (whose
`expect` failure branch is dead, see `ff_to_ark_prime_field`); term order is
preserved. -/
def gateToOpcode (source : AcirArithGate FieldB) : Opcode FieldA :=
  Opcode.AssertZero
    (source.mul_terms.map fun t => (ff_to_ark_prime_field t.1, t.2.1, t.2.2))
    (source.add_terms.map fun t => (ff_to_ark_prime_field t.1, t.2))
    (ff_to_ark_prime_field source.constant_term)

/-- Embeds `From<Opcode> for AcirArithGate` of `src/gate.rs`: an `AssertZero`
opcode is converted term-by-term through `generic_ark_ff_to_prime_field`;
any other opcode panics (`panic!("Unsupported opcode")`), modelled as
`none`. -/
def opcodeToGate : Opcode FieldA → Option (AcirArithGate FieldB)
  | Opcode.AssertZero mul lin qc =>
      some
        { mul_terms := mul.map fun t =>
            (generic_ark_ff_to_prime_field t.1, t.2.1, t.2.2)
          add_terms := lin.map fun t => (generic_ark_ff_to_prime_field t.1, t.2)
          constant_term := generic_ark_ff_to_prime_field qc }
  | Opcode.Unsupported => none

/-- C7: for every gate constructible from a supported (assert-zero) opcode —
equivalently, for every gate, since `gateToOpcode` always produces an
`AssertZero` opcode — converting the gate to the opcode representation and
back succeeds and yields a gate term-for-term equal to the original: the same
`mul_terms` and `add_terms` in the same order with equal coefficients and
witness identifiers, and an equal constant term (structural equality of the
term lists; neither direction sorts or deduplicates). -/
theorem gate_opcode_roundtrip (g : AcirArithGate FieldB) :
    opcodeToGate (gateToOpcode g) = some g := by
  unfold gateToOpcode opcodeToGate
  simp only [List.map_map, Option.some.injEq]
  cases g with
  | mk mul add c =>
      simp only [AcirArithGate.mk.injEq]
      refine ⟨?_, ?_, ?_⟩
      · conv_rhs => rw [show mul = mul.map id from (List.map_id mul).symm]
        refine List.map_congr_left fun t _ => ?_
        simp [Function.comp, ff_to_ark_prime_field_eq, generic_ark_ff_to_prime_field_eq]
      · conv_rhs => rw [show add = add.map id from (List.map_id add).symm]
        refine List.map_congr_left fun t _ => ?_
        simp [Function.comp, ff_to_ark_prime_field_eq, generic_ark_ff_to_prime_field_eq]
      · rw [ff_to_ark_prime_field_eq, generic_ark_ff_to_prime_field_eq]

/-! ## IO profile extraction (`src/program.rs`, `extract_io`) -/

/-- Embeds `IOProfile` of the `ivc_program` crate as used by
`src/program.rs`: four `BTreeSet<WitnessID>`s, modelled as `Finset ℕ`. -/
structure IOProfile where
  public_inputs : Finset ℕ
  private_inputs : Finset ℕ
  public_outputs : Finset ℕ
  private_outputs : Finset ℕ
deriving DecidableEq

/-- The six set intersections of an IO profile are all empty. -/
def IOProfile.PairwiseDisjoint (io : IOProfile) : Prop :=
  io.public_inputs ∩ io.private_inputs = ∅ ∧
  io.public_inputs ∩ io.public_outputs = ∅ ∧
  io.public_inputs ∩ io.private_outputs = ∅ ∧
  io.private_inputs ∩ io.public_outputs = ∅ ∧
  io.private_inputs ∩ io.private_outputs = ∅ ∧
  io.public_outputs ∩ io.private_outputs = ∅

instance (io : IOProfile) : Decidable io.PairwiseDisjoint := by
  unfold IOProfile.PairwiseDisjoint; infer_instance

/-- Embeds `extract_io` of `src/program.rs`.  Its four inputs are the witness
identifier sets read off the ACVM circuit: `return_values`, the circuit's
`public_inputs()`, its `circuit_arguments()`, and the caller-supplied explicit
`private_outputs`.  The Rust `assert!(public_outputs.is_superset(private_outputs))`
(a panic on violation) is modelled as the `none` branch. -/
def extract_io (return_values public_inputs circuit_arguments private_outputs :
    Finset ℕ) : Option IOProfile :=
  if private_outputs ⊆ return_values then
    let public_outputs := return_values \ private_outputs
    let public_inputs2 := public_inputs \ public_outputs
    let private_inputs := (circuit_arguments \ public_outputs) \ public_inputs2
    some ⟨public_inputs2, private_inputs, public_outputs, private_outputs⟩
  else none

/-- C5: `extract_io` requires the explicit private outputs to be a subset of
the declared return values (a violated `assert!` is a structural error,
modelled by `none`); otherwise it returns exactly
`publicOutputs = returnValues \ privateOutputs`,
`publicInputs = declaredPublicInputs \ publicOutputs`,
`privateInputs = circuitArguments \ publicOutputs \ publicInputs` and
`privateOutputs` unchanged. -/
theorem extract_io_formulas (rv pi ca po : Finset ℕ) :
    (po ⊆ rv →
      extract_io rv pi ca po =
        some ⟨pi \ (rv \ po), (ca \ (rv \ po)) \ (pi \ (rv \ po)), rv \ po, po⟩) ∧
    (¬ po ⊆ rv → extract_io rv pi ca po = none) := by
  constructor <;> intro h <;> simp [extract_io, h]

/-- Witness for `extract_io_formulas` at concrete sets: the subset branch at
`rv = {0, 1}`, `pi = {0}`, `ca = {2}`, `po = {1}`. -/
theorem extract_io_formulas_instance :
    extract_io {0, 1} {0} {2} {1} =
      some ⟨{0} \ ({0, 1} \ {1}), ({2} \ ({0, 1} \ {1})) \ ({0} \ ({0, 1} \ {1})),
        {0, 1} \ {1}, {1}⟩ :=
  (extract_io_formulas {0, 1} {0} {2} {1}).1 (by decide)

/-- C4 counterexample: with return values `{0}`, declared public inputs `∅`,
circuit arguments `{0}` and explicit private outputs `{0}` (a subset of the
return values, as the claim requires), `extract_io` succeeds but the
resulting private-input set `{0}` and private-output set `{0}` intersect, so
the four sets are not pairwise disjoint. -/
theorem extract_io_not_pairwise_disjoint :
    ({0} : Finset ℕ) ⊆ {0} ∧
    extract_io {0} ∅ {0} {0} = some ⟨∅, {0}, ∅, {0}⟩ ∧
    ¬ IOProfile.PairwiseDisjoint ⟨∅, {0}, ∅, {0}⟩ := by
  refine ⟨by decide, ?_, by decide⟩
  decide

/-- C4 (amended): if `extract_io` succeeds and the explicit private-output set
is disjoint from both the declared public inputs and the circuit arguments —
in particular whenever it is empty, the only case exercised by this crate —
then the four sets of the produced IO profile are pairwise disjoint. -/
theorem extract_io_pairwise_disjoint (rv pi ca po : Finset ℕ) (io : IOProfile)
    (h : extract_io rv pi ca po = some io)
    (hpi : po ∩ pi = ∅) (hca : po ∩ ca = ∅) :
    io.PairwiseDisjoint := by
  rw [extract_io] at h
  by_cases hsub : po ⊆ rv
  · rw [if_pos hsub, Option.some.injEq] at h
    subst h
    have hpi2 : Disjoint po pi := Finset.disjoint_iff_inter_eq_empty.2 hpi
    have hca2 : Disjoint po ca := Finset.disjoint_iff_inter_eq_empty.2 hca
    refine ⟨?_, ?_, ?_, ?_, ?_, ?_⟩ <;>
        rw [← Finset.disjoint_iff_inter_eq_empty]
    · exact Finset.disjoint_sdiff
    · exact Finset.sdiff_disjoint
    · exact hpi2.symm.mono_left Finset.sdiff_subset
    · exact Finset.sdiff_disjoint.mono_left Finset.sdiff_subset
    · exact hca2.symm.mono_left (Finset.sdiff_subset.trans Finset.sdiff_subset)
    · exact Finset.sdiff_disjoint
  · rw [if_neg hsub] at h
    exact absurd h (by simp)

/-- Witness for `extract_io_pairwise_disjoint` at concrete sets: return
values `{1}`, declared public inputs `{0}`, circuit arguments `{0, 2}`,
explicit private outputs `∅`. -/
theorem extract_io_pairwise_disjoint_instance :
    IOProfile.PairwiseDisjoint ⟨{0}, {2}, {1}, ∅⟩ :=
  extract_io_pairwise_disjoint {1} {0} {0, 2} ∅ ⟨{0}, {2}, {1}, ∅⟩
    (by decide) (by decide) (by decide)

/-! ## Constraint-system and circuit data model
(`ivc_program` types as used by `src/program.rs`) -/

/-- Embeds `Term` of the `ivc_program` crate: one summand of a linear
combination, either `coefficient · w[var_id]` or a constant. -/
inductive Term (F : Type) where
  | LC (coefficient : F) (var_id : ℕ)
  | Const (c : F)
deriving DecidableEq

/-- Embeds `LC` of the `ivc_program` crate: a linear combination, an ordered
list of terms (`LC(Vec<Term>)`). -/
abbrev LinComb (F : Type) := List (Term F)

/-- Embeds `R1CSConstraint` of the `ivc_program` crate:
`(a) * (b) = (c)` over linear combinations. -/
structure R1CSConstraint (F : Type) where
  a : LinComb F
  b : LinComb F
  c : LinComb F
deriving DecidableEq

/-- Embeds `IVCProgram` of the `ivc_program` crate as carried by
`CircuitStructure` and `Step`. -/
structure IVCProgram (F : Type) where
  io : IOProfile
  num_witness : ℕ
  r1cs_constraints : List (R1CSConstraint F)
  curve : String
  version : String
deriving DecidableEq

/-- Embeds `Witness<F>` of the `ivc_program` crate: a `BTreeMap<WitnessID, F>`
modelled as an association list; the `BTreeMap` key-uniqueness invariant is
carried as an explicit hypothesis (`(w.map Prod.fst).Nodup`) where a theorem
needs it. -/
abbrev Witness (F : Type) := List (ℕ × F)

/-- The key set of a witness, as the `BTreeSet` of its `keys()`. -/
def Witness.keyFinset {F : Type} (w : Witness F) : Finset ℕ :=
  (w.map Prod.fst).toFinset

/-- Embeds `CircuitStructure<F>` of `src/program.rs`. -/
structure CircuitStructure (F : Type) where
  gates : List (AcirArithGate F)
  program : IVCProgram F
deriving DecidableEq

/-- Embeds `Step<F>` of the `ivc_program` crate: a solved (expanded) witness
plus the constraint-system description. -/
structure Step (F : Type) where
  witness : Witness F
  program : IVCProgram F
deriving DecidableEq

/-! ## Input validation (`src/program.rs`, `is_valid_input`) -/

/-- Embeds `CircuitStructure::is_valid_input` of `src/program.rs`: compares
the key set of the supplied public-input witness with the declared
public-input set, and the key set of the supplied private-input witness with
the declared private-input set, and combines the two comparisons with `||`. -/
def is_valid_input {F : Type} (cs : CircuitStructure F)
    (public_inputs private_inputs : Witness F) : Bool :=
  decide (public_inputs.keyFinset = cs.program.io.public_inputs) ||
  decide (private_inputs.keyFinset = cs.program.io.private_inputs)

/-- C3: `is_valid_input` returns `true` iff the key set of the supplied
public-input witness equals the declared public-input set OR the key set of
the supplied private-input witness equals the declared private-input set — a
logical OR of the two set equalities, not a conjunction. -/
theorem is_valid_input_iff {F : Type} (cs : CircuitStructure F)
    (pub priv : Witness F) :
    is_valid_input cs pub priv = true ↔
      (pub.keyFinset = cs.program.io.public_inputs ∨
       priv.keyFinset = cs.program.io.private_inputs) := by
  simp [is_valid_input]

/-! ## Trivial witness (`src/program.rs`, `make_trivial_witness`) -/

/-- The set of witness identifiers a gate refers to, as collected by
`make_trivial_witness`: both sides of every `mul_term` and the identifier of
every `add_term`. -/
def gateWitnessSet {F : Type} (g : AcirArithGate F) : Finset ℕ :=
  (g.mul_terms.flatMap fun t => [t.2.1, t.2.2]).toFinset ∪
    (g.add_terms.map fun t => t.2).toFinset

/-- The full `witness_set` collected by `make_trivial_witness`: the four IO
profile sets together with every identifier referenced by any gate's terms. -/
def referencedWitnessSet {F : Type} (cs : CircuitStructure F) : Finset ℕ :=
  cs.program.io.public_inputs ∪ cs.program.io.private_inputs ∪
    cs.program.io.public_outputs ∪ cs.program.io.private_outputs ∪
    cs.gates.foldr (fun g acc => gateWitnessSet g ∪ acc) ∅

/-- Embeds `CircuitStructure::make_trivial_witness` of `src/program.rs`:
collects the referenced-identifier set, asserts
`witness_set.iter().max().unwrap().0 == witness_set.len() as u32 - 1`
(the `unwrap` panics on an empty set and the `assert_eq!` panics on a
non-dense set, both modelled as `none`), and maps every collected identifier
to the field zero (in ascending key order, as a `BTreeMap` iterates). -/
def make_trivial_witness {F : Type} [Zero F] (cs : CircuitStructure F) :
    Option (Witness F) :=
  let s := referencedWitnessSet cs
  if h : s.Nonempty then
    if s.max' h = s.card - 1 then
      some ((s.sort (· ≤ ·)).map fun id => (id, (0 : F)))
    else none
  else none

/-- For a nonempty finite set of naturals, the maximum equals `card - 1`
exactly when the set is the dense range `{0, …, card - 1}`. -/
lemma max_eq_card_sub_one_iff (s : Finset ℕ) (h : s.Nonempty) :
    s.max' h = s.card - 1 ↔ s = Finset.range s.card := by
  constructor
  · intro hm
    apply Finset.eq_of_subset_of_card_le
    · intro x hx
      rw [Finset.mem_range]
      have hle := Finset.le_max' s x hx
      have hcard : 1 ≤ s.card := Finset.card_pos.2 h
      omega
    · rw [Finset.card_range]
  · intro hs
    have hcard : 1 ≤ s.card := Finset.card_pos.2 h
    apply le_antisymm
    · have hmem : s.max' h ∈ Finset.range s.card := by
        rw [← hs]; exact Finset.max'_mem s h
      rw [Finset.mem_range] at hmem
      omega
    · refine Finset.le_max' s _ ?_
      have h1 : s.card - 1 ∈ Finset.range s.card := Finset.mem_range.2 (by omega)
      rw [← hs] at h1
      exact h1

/-- C8 (amended): `make_trivial_witness` fails exactly when the referenced
identifier set is empty (the `unwrap` of the maximum panics) or is not the
dense range `{0, …, n-1}` (the density `assert_eq!` fails); on success the
returned witness assigns the field zero to every referenced identifier, in
ascending order. -/
theorem make_trivial_witness_spec {F : Type} [Zero F] (cs : CircuitStructure F) :
    (make_trivial_witness cs = none ↔
      referencedWitnessSet cs = ∅ ∨
        referencedWitnessSet cs ≠
          Finset.range (referencedWitnessSet cs).card) ∧
    ∀ w, make_trivial_witness cs = some w →
      w = ((referencedWitnessSet cs).sort (· ≤ ·)).map fun id => (id, (0 : F)) := by
  unfold make_trivial_witness
  by_cases h : (referencedWitnessSet cs).Nonempty
  · rw [dif_pos h]
    by_cases hm : (referencedWitnessSet cs).max' h =
        (referencedWitnessSet cs).card - 1
    · rw [if_pos hm]
      rw [max_eq_card_sub_one_iff _ h] at hm
      constructor
      · refine iff_of_false (by simp) ?_
        push_neg
        exact ⟨h.ne_empty, hm⟩
      · intro w hw
        exact (Option.some.inj hw).symm
    · rw [if_neg hm]
      constructor
      · simp only [true_iff]
        right
        intro hs
        exact hm ((max_eq_card_sub_one_iff _ h).2 hs)
      · intro w hw
        exact absurd hw (by simp)
  · rw [dif_neg h]
    rw [Finset.not_nonempty_iff_eq_empty] at h
    exact ⟨by simp [h], fun w hw => absurd hw (by simp)⟩

/-- An empty circuit structure over `ZMod 101` (the Rust code is generic over
the `ff::PrimeField` parameter; a small prime keeps evaluation cheap). -/
def csEmpty : CircuitStructure (ZMod 101) :=
  ⟨[], ⟨⟨∅, ∅, ∅, ∅⟩, 0, [], "", ""⟩⟩

/-- A circuit structure whose only referenced identifier is `0`, declared as
a public input. -/
def csSingle : CircuitStructure (ZMod 101) :=
  ⟨[], ⟨⟨{0}, ∅, ∅, ∅⟩, 0, [], "", ""⟩⟩

/-- C8 counterexample: for the empty circuit structure the referenced
identifier set is empty, which IS the dense range `{0, …, n-1}` for `n = 0`,
yet `make_trivial_witness` fails (the `unwrap` of the maximum of the empty
set panics) instead of succeeding with the empty assignment. -/
theorem make_trivial_witness_empty_fails :
    referencedWitnessSet csEmpty =
      Finset.range (referencedWitnessSet csEmpty).card ∧
    make_trivial_witness csEmpty = none := by
  constructor
  · decide
  · decide

/-- Witness for `make_trivial_witness_spec` at the concrete circuit
`csSingle`: the produced trivial witness assigns zero to the single
referenced identifier. -/
theorem make_trivial_witness_spec_instance :
    [((0 : ℕ), (0 : ZMod 101))] =
      ((referencedWitnessSet csSingle).sort (· ≤ ·)).map
        fun id => (id, (0 : ZMod 101)) :=
  (make_trivial_witness_spec csSingle).2 [(0, 0)] (by
    have hs : referencedWitnessSet csSingle = {0} := by decide
    simp [make_trivial_witness, hs, Finset.singleton_nonempty,
      Finset.max'_singleton, Finset.sort_singleton])

/-! ## Gate-to-R1CS expansion (`src/program.rs`, `make_step`) -/

/-- `BTreeMap::insert` on the association-list model: replace in place when
the key is present, append otherwise.  (In every use below the appended key
is larger than all present keys, so appending also matches the `BTreeMap`
iteration order.) -/
def mapInsert {F : Type} (k : ℕ) (v : F) (w : Witness F) : Witness F :=
  if w.any (fun p => p.1 == k) then
    w.map fun p => if p.1 == k then (k, v) else p
  else w ++ [(k, v)]

/-- The mutable state threaded through `make_step`'s gate loop: the running
assignment, the running witness count and the emitted constraints. -/
structure StepBuild (F : Type) where
  witness : Witness F
  num_witness : ℕ
  r1cs_constraints : List (R1CSConstraint F)
deriving DecidableEq

/-- Embeds the inner multiplication-term loop of `make_step`: for each
`(coeff, left, right)` the two operand values are looked up in the running
assignment (a missing operand is the `expect` panic, modelled as `none`), a
fresh witness identifier `num_witness` is allocated for their product, the
bilinear constraint `(left_val·left) * (right_val·right) = (prod_val·prod_id)`
is emitted, and `coeff·prod_id` is accumulated into the gate's running linear
combination `big_lc_a`. -/
def processMulTerms {F : Type} [CommRing F] :
    List (F × ℕ × ℕ) → StepBuild F → LinComb F →
      Option (StepBuild F × LinComb F)
  | [], st, big_lc_a => some (st, big_lc_a)
  | (coeff, left, right) :: rest, st, big_lc_a =>
      match List.lookup left st.witness, List.lookup right st.witness with
      | some left_val, some right_val =>
          let prod_val := left_val * right_val
          let prod_id := st.num_witness
          processMulTerms rest
            ⟨mapInsert prod_id prod_val st.witness, st.num_witness + 1,
              st.r1cs_constraints ++
                [⟨[Term.LC left_val left], [Term.LC right_val right],
                  [Term.LC prod_val prod_id]⟩]⟩
            (big_lc_a ++ [Term.LC coeff prod_id])
      | _, _ => none

/-- Embeds the per-gate body of `make_step`: after the multiplication terms,
the `add_terms` and the constant term are appended to `big_lc_a`, and the
closing constraint `(big_lc_a) * (constant 1) = (empty)` is emitted. -/
def processGate {F : Type} [CommRing F] (st : StepBuild F)
    (gate : AcirArithGate F) : Option (StepBuild F) := do
  let (st1, big) ← processMulTerms gate.mul_terms st []
  let big_lc_a := big ++ (gate.add_terms.map fun t => Term.LC t.1 t.2) ++
    [Term.Const gate.constant_term]
  some ⟨st1.witness, st1.num_witness,
    st1.r1cs_constraints ++ [⟨big_lc_a, [Term.Const 1], []⟩]⟩

/-- Embeds `CircuitStructure::make_step` of `src/program.rs`: starts from the
solved witness with `num_witness = |solved_witness|`, folds `processGate`
over the gates in list order, and returns the final assignment together with
an `IVCProgram` carrying the emitted constraints and the IO/versioning
metadata copied from the structure. -/
def make_step {F : Type} [CommRing F] (cs : CircuitStructure F)
    (solved_witness : Witness F) : Option (Step F) := do
  let st ← cs.gates.foldlM processGate
    ⟨solved_witness, solved_witness.length, []⟩
  some ⟨st.witness,
    ⟨cs.program.io, st.num_witness, st.r1cs_constraints,
      cs.program.curve, cs.program.version⟩⟩

/-! ### Evaluation of constraints and gates -/

/-- The total assignment a witness map denotes: defined keys take their
mapped value (absent keys default to zero; the theorems below only evaluate
defined keys). -/
def assignmentOf {F : Type} [Zero F] (w : Witness F) (k : ℕ) : F :=
  (List.lookup k w).getD 0

/-- Value of one linear-combination term under an assignment. -/
def Term.eval {F : Type} [CommRing F] (w : ℕ → F) : Term F → F
  | Term.LC coefficient var_id => coefficient * w var_id
  | Term.Const c => c

/-- Value of a linear combination under an assignment. -/
def evalLinComb {F : Type} [CommRing F] (w : ℕ → F) (lc : LinComb F) : F :=
  (lc.map (Term.eval w)).sum

/-- An R1CS constraint `(a) * (b) = (c)` is satisfied by an assignment. -/
def constraintHolds {F : Type} [CommRing F] (w : ℕ → F)
    (cons : R1CSConstraint F) : Prop :=
  evalLinComb w cons.a * evalLinComb w cons.b = evalLinComb w cons.c

/-- The value of a gate's quadratic expression
`Σ coeff·w[left]·w[right] + Σ coeff·w[id] + constant` under an assignment;
the gate's constraint is that this value is zero. -/
def evalGate {F : Type} [CommRing F] (w : ℕ → F) (g : AcirArithGate F) : F :=
  (g.mul_terms.map fun t => t.1 * w t.2.1 * w t.2.2).sum +
    (g.add_terms.map fun t => t.1 * w t.2).sum + g.constant_term

/-! ### Explicit form of the expansion

The following functions compute, directly and without threading state, the
auxiliary witness entries and constraints that `make_step` produces; the
characterization theorem below proves `make_step` equal to them whenever the
solved witness is dense and covers the gates' identifiers. -/

/-- The auxiliary witness entries for one gate's multiplication terms:
consecutive identifiers starting at `off`, mapped to the operand products
under the assignment `A`. -/
def auxPairs {F : Type} [CommRing F] (A : ℕ → F) (off : ℕ) :
    List (F × ℕ × ℕ) → Witness F
  | [] => []
  | t :: rest => (off, A t.2.1 * A t.2.2) :: auxPairs A (off + 1) rest

/-- The bilinear constraints for one gate's multiplication terms, one per
term in term order. -/
def bilinearsOf {F : Type} [CommRing F] (A : ℕ → F) (off : ℕ) :
    List (F × ℕ × ℕ) → List (R1CSConstraint F)
  | [] => []
  | t :: rest =>
      ⟨[Term.LC (A t.2.1) t.2.1], [Term.LC (A t.2.2) t.2.2],
        [Term.LC (A t.2.1 * A t.2.2) off]⟩ :: bilinearsOf A (off + 1) rest

/-- The `coeff·prod_id` terms a gate's multiplication loop accumulates into
its running linear combination. -/
def coeffTerms {F : Type} (off : ℕ) : List (F × ℕ × ℕ) → LinComb F
  | [] => []
  | t :: rest => Term.LC t.1 off :: coeffTerms (off + 1) rest

/-- The closing constraint of one gate whose auxiliary identifiers start at
`off`: `(assembled linear combination) * (constant 1) = (empty)`. -/
def closingOf {F : Type} [CommRing F] (off : ℕ) (g : AcirArithGate F) :
    R1CSConstraint F :=
  ⟨coeffTerms off g.mul_terms ++ (g.add_terms.map fun t => Term.LC t.1 t.2) ++
      [Term.Const g.constant_term],
    [Term.Const 1], []⟩

/-- Total number of multiplication terms over a gate list. -/
def totalMulCount {F : Type} (gs : List (AcirArithGate F)) : ℕ :=
  (gs.map fun g => g.mul_terms.length).sum

/-- All auxiliary witness entries over a gate list, gate by gate. -/
def gatesAuxPairs {F : Type} [CommRing F] (A : ℕ → F) (off : ℕ) :
    List (AcirArithGate F) → Witness F
  | [] => []
  | g :: gs =>
      auxPairs A off g.mul_terms ++
        gatesAuxPairs A (off + g.mul_terms.length) gs

/-- All constraints over a gate list: per gate, its bilinear constraints in
term order followed by its closing constraint. -/
def gatesConstraints {F : Type} [CommRing F] (A : ℕ → F) (off : ℕ) :
    List (AcirArithGate F) → List (R1CSConstraint F)
  | [] => []
  | g :: gs =>
      bilinearsOf A off g.mul_terms ++ [closingOf off g] ++
        gatesConstraints A (off + g.mul_terms.length) gs

/-! ### Association-list lemmas -/

lemma lookup_cons {F : Type} (k : ℕ) (p : ℕ × F) (w : Witness F) :
    List.lookup k (p :: w) = if k = p.1 then some p.2 else List.lookup k w := by
  cases p with
  | mk a b =>
      by_cases h : k = a
      · simp [List.lookup, h]
      · have hb : (k == a) = false := beq_eq_false_iff_ne.2 h
        simp [List.lookup, hb, h]

lemma lookup_isSome_iff_mem_keys {F : Type} (w : Witness F) (k : ℕ) :
    (List.lookup k w).isSome ↔ k ∈ w.map Prod.fst := by
  induction w with
  | nil => simp [List.lookup]
  | cons p rest ih =>
      rw [lookup_cons]
      by_cases h : k = p.1 <;> simp [h, ih]

lemma lookup_eq_none_iff_keys {F : Type} (w : Witness F) (k : ℕ) :
    List.lookup k w = none ↔ k ∉ w.map Prod.fst := by
  rw [← lookup_isSome_iff_mem_keys]
  exact Option.not_isSome_iff_eq_none.symm

lemma lookup_append {F : Type} (w1 w2 : Witness F) (k : ℕ) :
    List.lookup k (w1 ++ w2) = (List.lookup k w1).or (List.lookup k w2) := by
  induction w1 with
  | nil => simp [List.lookup]
  | cons p rest ih =>
      rw [List.cons_append, lookup_cons, lookup_cons]
      by_cases h : k = p.1 <;> simp [h, ih]

lemma lookup_append_left {F : Type} (w1 w2 : Witness F) (k : ℕ)
    (h : k ∈ w1.map Prod.fst) :
    List.lookup k (w1 ++ w2) = List.lookup k w1 := by
  rw [lookup_append]
  rw [← lookup_isSome_iff_mem_keys] at h
  cases hl : List.lookup k w1 with
  | none => rw [hl] at h; cases h
  | some v => rfl

lemma lookup_of_mem_of_nodup {F : Type} (w : Witness F) (k : ℕ) (v : F)
    (hnd : (w.map Prod.fst).Nodup) (hmem : (k, v) ∈ w) :
    List.lookup k w = some v := by
  induction w with
  | nil => cases hmem
  | cons p rest ih =>
      rw [List.map_cons, List.nodup_cons] at hnd
      rw [lookup_cons]
      rcases List.mem_cons.1 hmem with h | h
      · rw [← h]
        simp
      · have hk : k ≠ p.1 := by
          intro hk
          exact hnd.1 (hk ▸ (List.mem_map.2 ⟨(k, v), h, rfl⟩))
        rw [if_neg hk]
        exact ih hnd.2 h

lemma mapInsert_not_mem {F : Type} (k : ℕ) (v : F) (w : Witness F)
    (h : k ∉ w.map Prod.fst) : mapInsert k v w = w ++ [(k, v)] := by
  rw [mapInsert, if_neg]
  simp only [List.any_eq_true, beq_iff_eq, not_exists, not_and]
  intro p hp hpk
  exact h (List.mem_map.2 ⟨p, hp, hpk⟩)

/-! ### Characterization of the expansion -/

lemma processMulTerms_eq {F : Type} [CommRing F] (A : ℕ → F) (n : ℕ)
    (ms : List (F × ℕ × ℕ)) (st : StepBuild F) (big : LinComb F)
    (hkeys : st.witness.map Prod.fst = List.range st.num_witness)
    (hge : n ≤ st.num_witness)
    (hagree : ∀ k, k < n → List.lookup k st.witness = some (A k))
    (hvars : ∀ t ∈ ms, t.2.1 < n ∧ t.2.2 < n) :
    processMulTerms ms st big =
      some (⟨st.witness ++ auxPairs A st.num_witness ms,
             st.num_witness + ms.length,
             st.r1cs_constraints ++ bilinearsOf A st.num_witness ms⟩,
            big ++ coeffTerms st.num_witness ms) := by
  induction ms generalizing st big with
  | nil => simp [processMulTerms, auxPairs, bilinearsOf, coeffTerms]
  | cons t rest ih =>
      obtain ⟨coeff, left, right⟩ := t
      have hl : left < n := (hvars _ (List.mem_cons_self _ _)).1
      have hr : right < n := (hvars _ (List.mem_cons_self _ _)).2
      have hnotmem : st.num_witness ∉ st.witness.map Prod.fst := by
        rw [hkeys]
        simp
      rw [processMulTerms, hagree left hl, hagree right hr]
      dsimp only
      rw [mapInsert_not_mem _ _ _ hnotmem]
      refine (ih _ _ ?_ ?_ ?_ ?_).trans ?_
      · simp only [List.map_append, hkeys, List.map_cons, List.map_nil]
        rw [← List.range_succ]
      · exact Nat.le_succ_of_le hge
      · intro k hk
        rw [lookup_append_left _ _ _
          (by rw [hkeys]; simpa using lt_of_lt_of_le hk hge)]
        exact hagree k hk
      · exact fun t ht => hvars t (List.mem_cons_of_mem _ ht)
      · simp [auxPairs, bilinearsOf, coeffTerms, List.append_assoc]
        omega

lemma auxPairs_keys {F : Type} [CommRing F] (A : ℕ → F) (off : ℕ)
    (ms : List (F × ℕ × ℕ)) :
    (auxPairs A off ms).map Prod.fst = List.range' off ms.length := by
  induction ms generalizing off with
  | nil => simp [auxPairs]
  | cons t rest ih => simp [auxPairs, List.range'_succ, ih]

lemma range_append_range' (a b : ℕ) :
    List.range a ++ List.range' a b = List.range (a + b) := by
  rw [List.range'_eq_map_range, ← List.range_add]

lemma processGate_eq {F : Type} [CommRing F] (A : ℕ → F) (n : ℕ)
    (g : AcirArithGate F) (st : StepBuild F)
    (hkeys : st.witness.map Prod.fst = List.range st.num_witness)
    (hge : n ≤ st.num_witness)
    (hagree : ∀ k, k < n → List.lookup k st.witness = some (A k))
    (hvars : ∀ t ∈ g.mul_terms, t.2.1 < n ∧ t.2.2 < n) :
    processGate st g =
      some ⟨st.witness ++ auxPairs A st.num_witness g.mul_terms,
        st.num_witness + g.mul_terms.length,
        st.r1cs_constraints ++ bilinearsOf A st.num_witness g.mul_terms ++
          [closingOf st.num_witness g]⟩ := by
  rw [processGate,
    processMulTerms_eq A n g.mul_terms st [] hkeys hge hagree hvars]
  simp [closingOf, List.append_assoc]

lemma foldlM_processGate_eq {F : Type} [CommRing F] (A : ℕ → F) (n : ℕ)
    (gs : List (AcirArithGate F)) (st : StepBuild F)
    (hkeys : st.witness.map Prod.fst = List.range st.num_witness)
    (hge : n ≤ st.num_witness)
    (hagree : ∀ k, k < n → List.lookup k st.witness = some (A k))
    (hvars : ∀ g ∈ gs, ∀ t ∈ g.mul_terms, t.2.1 < n ∧ t.2.2 < n) :
    List.foldlM processGate st gs =
      some ⟨st.witness ++ gatesAuxPairs A st.num_witness gs,
        st.num_witness + totalMulCount gs,
        st.r1cs_constraints ++ gatesConstraints A st.num_witness gs⟩ := by
  induction gs generalizing st with
  | nil => simp [gatesAuxPairs, totalMulCount, gatesConstraints]
  | cons g gs ih =>
      rw [List.foldlM_cons,
        processGate_eq A n g st hkeys hge hagree
          (hvars g (List.mem_cons_self _ _))]
      show List.foldlM processGate _ gs = _
      refine (ih _ ?_ ?_ ?_ ?_).trans ?_
      · simp only [List.map_append, hkeys, auxPairs_keys]
        exact range_append_range' _ _
      · exact le_trans hge (Nat.le_add_right _ _)
      · intro k hk
        rw [lookup_append_left _ _ _
          (by rw [hkeys]; exact List.mem_range.2 (lt_of_lt_of_le hk hge))]
        exact hagree k hk
      · exact fun g' hg' => hvars g' (List.mem_cons_of_mem _ hg')
      · simp only [gatesAuxPairs, totalMulCount, gatesConstraints, List.map_cons,
          List.sum_cons, List.append_assoc, Option.some.injEq, StepBuild.mk.injEq]
        exact ⟨trivial, by omega, trivial⟩

/-- Characterization of `make_step` on a dense solved witness: the returned
step extends the solved witness with exactly the per-multiplication auxiliary
product entries, counts `|solvedWitness| + totalMulCount` witnesses, and
emits exactly the per-gate bilinear-then-closing constraint sequence. -/
theorem make_step_eq {F : Type} [CommRing F] (cs : CircuitStructure F)
    (sw : Witness F)
    (hkeys : sw.map Prod.fst = List.range sw.length)
    (hvars : ∀ g ∈ cs.gates, ∀ t ∈ g.mul_terms,
      t.2.1 < sw.length ∧ t.2.2 < sw.length) :
    make_step cs sw =
      some ⟨sw ++ gatesAuxPairs (assignmentOf sw) sw.length cs.gates,
        ⟨cs.program.io, sw.length + totalMulCount cs.gates,
          gatesConstraints (assignmentOf sw) sw.length cs.gates,
          cs.program.curve, cs.program.version⟩⟩ := by
  have hagree0 : ∀ k, k < sw.length →
      List.lookup k sw = some (assignmentOf sw k) := by
    intro k hk
    have hm : k ∈ sw.map Prod.fst := by
      rw [hkeys]
      exact List.mem_range.2 hk
    rw [← lookup_isSome_iff_mem_keys] at hm
    cases hl : List.lookup k sw with
    | none => rw [hl] at hm; cases hm
    | some v => rw [assignmentOf, hl]; rfl
  rw [make_step,
    foldlM_processGate_eq (assignmentOf sw) sw.length cs.gates
      ⟨sw, sw.length, []⟩ hkeys le_rfl hagree0 hvars]
  rfl

/-! ### Satisfaction of the emitted constraints -/

lemma range'_append_range' (off a b : ℕ) :
    List.range' off a ++ List.range' (off + a) b = List.range' off (a + b) := by
  rw [List.range'_eq_map_range, List.range'_eq_map_range,
    List.range'_eq_map_range, List.range_add, List.map_append, List.map_map]
  congr 1
  refine List.map_congr_left fun x _ => ?_
  simp [Function.comp, Nat.add_assoc]

lemma gatesAuxPairs_keys {F : Type} [CommRing F] (A : ℕ → F) (off : ℕ)
    (gs : List (AcirArithGate F)) :
    (gatesAuxPairs A off gs).map Prod.fst = List.range' off (totalMulCount gs) := by
  induction gs generalizing off with
  | nil => simp [gatesAuxPairs, totalMulCount]
  | cons g gs ih =>
      rw [gatesAuxPairs, List.map_append, auxPairs_keys, ih]
      rw [range'_append_range']
      simp [totalMulCount]

lemma evalLinComb_append {F : Type} [CommRing F] (w : ℕ → F)
    (lc1 lc2 : LinComb F) :
    evalLinComb w (lc1 ++ lc2) = evalLinComb w lc1 + evalLinComb w lc2 := by
  simp [evalLinComb]

lemma mulVars_mem_gateWitnessSet {F : Type} (g : AcirArithGate F)
    (t : F × ℕ × ℕ) (ht : t ∈ g.mul_terms) :
    t.2.1 ∈ gateWitnessSet g ∧ t.2.2 ∈ gateWitnessSet g := by
  constructor <;>
    · rw [gateWitnessSet]
      apply Finset.mem_union_left
      rw [List.mem_toFinset]
      exact List.mem_flatMap.2 ⟨t, ht, by simp⟩

lemma addVar_mem_gateWitnessSet {F : Type} (g : AcirArithGate F)
    (t : F × ℕ) (ht : t ∈ g.add_terms) : t.2 ∈ gateWitnessSet g := by
  rw [gateWitnessSet]
  apply Finset.mem_union_right
  rw [List.mem_toFinset]
  exact List.mem_map.2 ⟨t, ht, rfl⟩

lemma bilinearsOf_sat {F : Type} [CommRing F] (A : ℕ → F) (W : Witness F)
    (off : ℕ) (ms : List (F × ℕ × ℕ))
    (hnd : (W.map Prod.fst).Nodup)
    (hagree : ∀ t ∈ ms,
      assignmentOf W t.2.1 = A t.2.1 ∧ assignmentOf W t.2.2 = A t.2.2)
    (hmem : ∀ p ∈ auxPairs A off ms, p ∈ W) :
    ∀ cst ∈ bilinearsOf A off ms,
      constraintHolds (assignmentOf W) cst ∧
      (cst.b = [Term.Const 1] ∧ cst.c = [] →
        evalLinComb (assignmentOf W) cst.a = 0) := by
  induction ms generalizing off with
  | nil => simp [bilinearsOf]
  | cons t rest ih =>
      intro cst hc
      rw [bilinearsOf] at hc
      rcases List.mem_cons.1 hc with h | h
      · subst h
        have hoff : assignmentOf W off = A t.2.1 * A t.2.2 := by
          rw [assignmentOf,
            lookup_of_mem_of_nodup W off (A t.2.1 * A t.2.2) hnd
              (hmem (off, A t.2.1 * A t.2.2)
                (by rw [auxPairs]; exact List.mem_cons_self _ _))]
          rfl
        have ha := hagree t (List.mem_cons_self _ _)
        constructor
        · rw [constraintHolds]
          simp only [evalLinComb, List.map_cons, List.map_nil, Term.eval,
            List.sum_cons, List.sum_nil, add_zero, hoff, ha.1, ha.2]
          ring
        · intro hshape
          exact absurd hshape.1 (by simp)
      · exact ih (off + 1)
          (fun t' ht' => hagree t' (List.mem_cons_of_mem _ ht'))
          (fun p hp => hmem p (by rw [auxPairs]; exact List.mem_cons_of_mem _ hp))
          cst h

lemma coeffTerms_eval {F : Type} [CommRing F] (A : ℕ → F) (W : Witness F)
    (off : ℕ) (ms : List (F × ℕ × ℕ))
    (hnd : (W.map Prod.fst).Nodup)
    (hmem : ∀ p ∈ auxPairs A off ms, p ∈ W) :
    evalLinComb (assignmentOf W) (coeffTerms off ms) =
      (ms.map fun t => t.1 * (A t.2.1 * A t.2.2)).sum := by
  induction ms generalizing off with
  | nil => simp [coeffTerms, evalLinComb]
  | cons t rest ih =>
      have hoff : assignmentOf W off = A t.2.1 * A t.2.2 := by
        rw [assignmentOf,
          lookup_of_mem_of_nodup W off (A t.2.1 * A t.2.2) hnd
            (hmem (off, A t.2.1 * A t.2.2)
              (by rw [auxPairs]; exact List.mem_cons_self _ _))]
        rfl
      rw [coeffTerms]
      simp only [evalLinComb, List.map_cons, List.sum_cons, Term.eval, hoff]
      rw [← evalLinComb]
      rw [ih (off + 1)
        (fun p hp => hmem p (by rw [auxPairs]; exact List.mem_cons_of_mem _ hp))]

lemma evalLinComb_addTerms {F : Type} [CommRing F] (W A : ℕ → F)
    (ts : List (F × ℕ)) (h : ∀ t ∈ ts, W t.2 = A t.2) :
    evalLinComb W (ts.map fun t => Term.LC t.1 t.2) =
      (ts.map fun t => t.1 * A t.2).sum := by
  rw [evalLinComb, List.map_map]
  congr 1
  refine List.map_congr_left fun t ht => ?_
  simp [Function.comp, Term.eval, h t ht]

lemma gatesConstraints_sat {F : Type} [CommRing F] (A : ℕ → F)
    (W : Witness F) (off : ℕ) (gs : List (AcirArithGate F))
    (hnd : (W.map Prod.fst).Nodup)
    (hagree : ∀ g ∈ gs, ∀ id ∈ gateWitnessSet g, assignmentOf W id = A id)
    (hmem : ∀ p ∈ gatesAuxPairs A off gs, p ∈ W)
    (hsat : ∀ g ∈ gs, evalGate A g = 0) :
    ∀ cst ∈ gatesConstraints A off gs,
      constraintHolds (assignmentOf W) cst ∧
      (cst.b = [Term.Const 1] ∧ cst.c = [] →
        evalLinComb (assignmentOf W) cst.a = 0) := by
  induction gs generalizing off with
  | nil => simp [gatesConstraints]
  | cons g gs ih =>
      intro cst hc
      have hmemg : ∀ p ∈ auxPairs A off g.mul_terms, p ∈ W := fun p hp =>
        hmem p (by rw [gatesAuxPairs]; exact List.mem_append_left _ hp)
      rw [gatesConstraints, List.append_assoc, List.singleton_append] at hc
      rcases List.mem_append.1 hc with h | h
      · exact bilinearsOf_sat A W off g.mul_terms hnd
          (fun t ht =>
            ⟨hagree g (List.mem_cons_self _ _) _
                (mulVars_mem_gateWitnessSet g t ht).1,
              hagree g (List.mem_cons_self _ _) _
                (mulVars_mem_gateWitnessSet g t ht).2⟩)
          hmemg cst h
      · rcases List.mem_cons.1 h with h | h
        · subst h
          have hzero : evalLinComb (assignmentOf W) (closingOf off g).a = 0 := by
            rw [closingOf]
            dsimp only
            rw [evalLinComb_append, evalLinComb_append,
              coeffTerms_eval A W off g.mul_terms hnd hmemg,
              evalLinComb_addTerms (assignmentOf W) A g.add_terms
                (fun t ht => hagree g (List.mem_cons_self _ _) _
                  (addVar_mem_gateWitnessSet g t ht))]
            have hg := hsat g (List.mem_cons_self _ _)
            rw [evalGate] at hg
            have hmul : (g.mul_terms.map fun t => t.1 * (A t.2.1 * A t.2.2)).sum =
                (g.mul_terms.map fun t => t.1 * A t.2.1 * A t.2.2).sum := by
              congr 1
              exact List.map_congr_left fun t _ => by ring
            simp only [evalLinComb, List.map_cons, List.map_nil, Term.eval,
              List.sum_cons, List.sum_nil, add_zero]
            rw [hmul]
            linear_combination hg
          constructor
          · rw [constraintHolds, hzero]
            simp [evalLinComb, Term.eval, closingOf]
          · intro _
            exact hzero
        · exact ih (off + g.mul_terms.length)
            (fun g' hg' => hagree g' (List.mem_cons_of_mem _ hg'))
            (fun p hp => hmem p
              (by rw [gatesAuxPairs]; exact List.mem_append_right _ hp))
            (fun g' hg' => hsat g' (List.mem_cons_of_mem _ hg'))
            cst h

lemma bilinearsOf_length {F : Type} [CommRing F] (A : ℕ → F) (off : ℕ)
    (ms : List (F × ℕ × ℕ)) :
    (bilinearsOf A off ms).length = ms.length := by
  induction ms generalizing off with
  | nil => rfl
  | cons t rest ih => simp [bilinearsOf, ih]

lemma gatesConstraints_length {F : Type} [CommRing F] (A : ℕ → F) (off : ℕ)
    (gs : List (AcirArithGate F)) :
    (gatesConstraints A off gs).length = totalMulCount gs + gs.length := by
  induction gs generalizing off with
  | nil => rfl
  | cons g gs ih =>
      simp [gatesConstraints, bilinearsOf_length, ih, totalMulCount]
      omega

/-- C1: for every circuit structure and every solved witness that is dense
(`BTreeMap` keys exactly `{0, …, n-1}`), covers every identifier the gates
reference, and satisfies every gate's assert-zero equation — the properties
the solver guarantees of a solved witness — `make_step` succeeds, every
emitted R1CS constraint `(a)*(b)=(c)` is satisfied by the step's final
assignment (`a_value * b_value = c_value`), and every emitted per-gate
closing constraint (the ones of shape `(big_lc) * (constant 1) = (empty)`)
has its assembled linear combination evaluate to the field additive identity
under that assignment. -/
theorem make_step_constraints_satisfied {F : Type} [CommRing F]
    (cs : CircuitStructure F) (sw : Witness F)
    (hkeys : sw.map Prod.fst = List.range sw.length)
    (href : ∀ g ∈ cs.gates, ∀ id ∈ gateWitnessSet g, id < sw.length)
    (hsat : ∀ g ∈ cs.gates, evalGate (assignmentOf sw) g = 0) :
    ∃ step, make_step cs sw = some step ∧
      ∀ cst ∈ step.program.r1cs_constraints,
        constraintHolds (assignmentOf step.witness) cst ∧
        (cst.b = [Term.Const 1] ∧ cst.c = [] →
          evalLinComb (assignmentOf step.witness) cst.a = 0) := by
  have hvars : ∀ g ∈ cs.gates, ∀ t ∈ g.mul_terms,
      t.2.1 < sw.length ∧ t.2.2 < sw.length := fun g hg t ht =>
    ⟨href g hg _ (mulVars_mem_gateWitnessSet g t ht).1,
     href g hg _ (mulVars_mem_gateWitnessSet g t ht).2⟩
  refine ⟨_, make_step_eq cs sw hkeys hvars, ?_⟩
  have hWkeys : ((sw ++ gatesAuxPairs (assignmentOf sw) sw.length cs.gates).map
      Prod.fst) = List.range (sw.length + totalMulCount cs.gates) := by
    rw [List.map_append, hkeys, gatesAuxPairs_keys, range_append_range']
  have hnd : ((sw ++ gatesAuxPairs (assignmentOf sw) sw.length cs.gates).map
      Prod.fst).Nodup := by
    rw [hWkeys]
    exact List.nodup_range _
  have hagree : ∀ g ∈ cs.gates, ∀ id ∈ gateWitnessSet g,
      assignmentOf (sw ++ gatesAuxPairs (assignmentOf sw) sw.length cs.gates)
        id = assignmentOf sw id := by
    intro g hg id hid
    rw [assignmentOf, lookup_append_left _ _ _
      (by rw [hkeys]; exact List.mem_range.2 (href g hg id hid))]
    rfl
  exact gatesConstraints_sat (assignmentOf sw) _ sw.length cs.gates hnd hagree
    (fun p hp => List.mem_append_right _ hp) hsat

/-- C10: for every circuit structure with `G` gates containing `M`
multiplication terms in total, and every dense solved witness with `n`
entries covering the gates' identifiers, `make_step` succeeds and emits
exactly `M + G` constraints — per gate, one bilinear constraint per
multiplication term in gate-then-term order followed by that gate's closing
constraint, which is what `gatesConstraints` enumerates — allocates the
auxiliary witness identifiers `n, n+1, …, n+M-1` consecutively in encounter
order (the final witness is the solved witness followed by the auxiliary
entries, its key list being exactly `0, …, n+M-1` in order), and returns a
program whose `num_witness` equals `n + M`. -/
theorem make_step_shape {F : Type} [CommRing F] (cs : CircuitStructure F)
    (sw : Witness F)
    (hkeys : sw.map Prod.fst = List.range sw.length)
    (href : ∀ g ∈ cs.gates, ∀ id ∈ gateWitnessSet g, id < sw.length) :
    ∃ step, make_step cs sw = some step ∧
      step.program.num_witness = sw.length + totalMulCount cs.gates ∧
      step.program.r1cs_constraints.length =
        totalMulCount cs.gates + cs.gates.length ∧
      step.program.r1cs_constraints =
        gatesConstraints (assignmentOf sw) sw.length cs.gates ∧
      step.witness =
        sw ++ gatesAuxPairs (assignmentOf sw) sw.length cs.gates ∧
      step.witness.map Prod.fst =
        List.range (sw.length + totalMulCount cs.gates) := by
  have hvars : ∀ g ∈ cs.gates, ∀ t ∈ g.mul_terms,
      t.2.1 < sw.length ∧ t.2.2 < sw.length := fun g hg t ht =>
    ⟨href g hg _ (mulVars_mem_gateWitnessSet g t ht).1,
     href g hg _ (mulVars_mem_gateWitnessSet g t ht).2⟩
  refine ⟨_, make_step_eq cs sw hkeys hvars, rfl,
    gatesConstraints_length _ _ _, rfl, rfl, ?_⟩
  rw [List.map_append, hkeys, gatesAuxPairs_keys, range_append_range']

/-- A demonstration gate over `ZMod 101`:
`1·w0·w1 + 1·w2 + 95 = 0`. -/
def gateDemo : AcirArithGate (ZMod 101) := ⟨[(1, 0, 1)], [(1, 2)], 95⟩

/-- A circuit structure holding `gateDemo`. -/
def csDemo : CircuitStructure (ZMod 101) :=
  ⟨[gateDemo], ⟨⟨{0}, {1}, {2}, ∅⟩, 0, [], "bn254", "0.1"⟩⟩

/-- A solved witness for `csDemo`: `2·3 + 0 + 95 = 101 ≡ 0 (mod 101)`. -/
def swDemo : Witness (ZMod 101) := [(0, 2), (1, 3), (2, 0)]

/-- Witness for `make_step_constraints_satisfied` at the concrete circuit
`csDemo` with the concrete solved witness `swDemo`. -/
theorem make_step_constraints_satisfied_instance :
    ∃ step, make_step csDemo swDemo = some step ∧
      ∀ cst ∈ step.program.r1cs_constraints,
        constraintHolds (assignmentOf step.witness) cst ∧
        (cst.b = [Term.Const 1] ∧ cst.c = [] →
          evalLinComb (assignmentOf step.witness) cst.a = 0) :=
  make_step_constraints_satisfied csDemo swDemo (by decide) (by decide)
    (by decide)

/-- A demonstration gate with two multiplication terms over `ZMod 101`:
`2·w0·w0 + 5·w0·w1 + 7 = 0` (not satisfied by `swDemo2`; `make_step_shape`
does not require gate satisfaction). -/
def gateDemo2 : AcirArithGate (ZMod 101) := ⟨[(2, 0, 0), (5, 0, 1)], [], 7⟩

/-- A circuit structure holding `gateDemo2`. -/
def csDemo2 : CircuitStructure (ZMod 101) :=
  ⟨[gateDemo2], ⟨⟨{0}, {1}, ∅, ∅⟩, 0, [], "bn254", "0.1"⟩⟩

/-- A dense two-entry witness for `csDemo2`. -/
def swDemo2 : Witness (ZMod 101) := [(0, 4), (1, 9)]

/-- Witness for `make_step_shape` at the concrete circuit `csDemo2` with the
concrete solved witness `swDemo2`. -/
theorem make_step_shape_instance :
    ∃ step, make_step csDemo2 swDemo2 = some step ∧
      step.program.num_witness = swDemo2.length + totalMulCount csDemo2.gates ∧
      step.program.r1cs_constraints.length =
        totalMulCount csDemo2.gates + csDemo2.gates.length ∧
      step.program.r1cs_constraints =
        gatesConstraints (assignmentOf swDemo2) swDemo2.length csDemo2.gates ∧
      step.witness =
        swDemo2 ++ gatesAuxPairs (assignmentOf swDemo2) swDemo2.length
          csDemo2.gates ∧
      step.witness.map Prod.fst =
        List.range (swDemo2.length + totalMulCount csDemo2.gates) :=
  make_step_shape csDemo2 swDemo2 (by decide) (by decide)

/-! ## Step execution engine (`src/execute.rs`) -/

/-- Embeds the `Error` enum of `src/lib.rs`. -/
inductive Error where
  | UnsupportedProgram (msg : String)
  | FieldConversionError (text : String)
  | InvalidInput
  | IVCProgramError (msg : String)
  | ACVMSolveError (status : String)
deriving DecidableEq

/-- Outcome of a Rust function that may return a `Result` but may also abort
the process: `panic` models a failed `assert!` / `expect` / `panic!` (a
process abort, carrying no `Error` value), while `err` models a returned
`Err(...)`. -/
inductive Outcome (α : Type) where
  | panic
  | err (e : Error)
  | ok (val : α)
deriving DecidableEq

/-- Embeds `ExecutionResult<F>` of `src/lib.rs`. -/
structure ExecutionResult (F : Type) where
  iteration_number : ℕ
  public_input : Witness F
  private_input : Witness F
  public_output : Witness F
  private_output : Witness F
deriving DecidableEq

/-- Embeds `UnexecutedCircuit<F>` of `src/execute.rs` (its Rust field
`structure` is a Lean keyword and is named `circuit_structure` here). -/
structure UnexecutedCircuit (F : Type) where
  iteration_number : ℕ
  public_input : Witness F
  circuit_structure : CircuitStructure F
deriving DecidableEq

/-- Modelled from the spec: the terminal status of the external ACVM solver
(`acvm::pwg::ACVMStatus`); the engine requires `Solved` and surfaces every
other terminal status verbatim inside `ACVMSolveError`. -/
inductive ACVMStatus where
  | Solved
  | Other (status : String)
deriving DecidableEq

/-- Embeds the input merge of `src/execute.rs` (lines 48–50):
`let mut assigned_witness = self.public_input.clone();
assigned_witness.0.extend(private_input.0);` — `BTreeMap::extend` inserts
every private entry into a copy of the public map, overriding on key
collision. -/
def mergeInputs {F : Type} (public_input private_input : Witness F) :
    Witness F :=
  private_input.foldl (fun acc p => mapInsert p.1 p.2 acc) public_input

/-- Modelled from the spec: `Witness::extract_subset` of the external
`ivc_program` crate — "Partition the solved witness into the four IO
categories via the IO profile", failing (a returned `ivc_program::Error`,
wrapped as `IVCProgramError`) when a declared identifier is missing from the
witness. -/
def extract_subset {F : Type} (w : Witness F) (s : Finset ℕ) :
    Option (Witness F) :=
  if s ⊆ w.keyFinset then some (w.filter fun p => p.1 ∈ s) else none

/-- Modelled from the spec: `Witness::make_next_input_witness` of the
external `ivc_program` crate — the folding feedback map: "output wire K of
iteration i becomes input wire K of iteration i+1 for every corresponding
declared slot", pairing the declared public outputs with the declared public
inputs in ascending order. -/
def make_next_input_witness {F : Type} (public_output : Witness F)
    (io : IOProfile) : Witness F :=
  ((io.public_outputs.sort (· ≤ ·)).zip (io.public_inputs.sort (· ≤ ·))).foldl
    (fun acc pr =>
      match List.lookup pr.1 public_output with
      | some v => acc ++ [(pr.2, v)]
      | none => acc) []

/-- Embeds `UnexecutedCircuit::execute` of `src/execute.rs`, parameterized by
the external solver.  The function's first step is
`assert!(self.structure.is_valid_input(&self.public_input, &private_input))`:
on invalid input it ABORTS (`Outcome.panic`); it does not return
`Error::InvalidInput` (which no code in the crate constructs).  On valid
input it merges the two inputs, converts the merged assignment through the
field bridge, invokes the solver, requires the `Solved` status, converts the
solver's output back, partitions it via the IO profile, builds a step via
`make_step` (whose internal lookup `expect`s are aborts), and returns the
result, the step witness and the successor circuit state with
`iteration_number + 1`. -/
def execute (uc : UnexecutedCircuit FieldB) (private_input : Witness FieldB)
    (solver : List (Opcode FieldA) → Witness FieldA →
      ACVMStatus × Witness FieldA) :
    Outcome (ExecutionResult FieldB × Witness FieldB ×
      UnexecutedCircuit FieldB) :=
  if is_valid_input uc.circuit_structure uc.public_input private_input then
    let assigned_witness := mergeInputs uc.public_input private_input
    let initial_witness : Witness FieldA :=
      assigned_witness.map fun p => (p.1, ff_to_ark_prime_field p.2)
    let opcodes := uc.circuit_structure.gates.map gateToOpcode
    let res := solver opcodes initial_witness
    match res.1 with
    | ACVMStatus.Other status => Outcome.err (Error.ACVMSolveError status)
    | ACVMStatus.Solved =>
        let solved_witness : Witness FieldB :=
          res.2.map fun p => (p.1, generic_ark_ff_to_prime_field p.2)
        match
          extract_subset solved_witness
            uc.circuit_structure.program.io.public_inputs,
          extract_subset solved_witness
            uc.circuit_structure.program.io.private_inputs,
          extract_subset solved_witness
            uc.circuit_structure.program.io.public_outputs,
          extract_subset solved_witness
            uc.circuit_structure.program.io.private_outputs with
        | some pubIn, some privIn, some pubOut, some privOut =>
            match make_step uc.circuit_structure solved_witness with
            | none => Outcome.panic
            | some step =>
                Outcome.ok
                  (⟨uc.iteration_number, pubIn, privIn, pubOut, privOut⟩,
                    step.witness,
                    ⟨uc.iteration_number + 1,
                      make_next_input_witness pubOut
                        uc.circuit_structure.program.io,
                      uc.circuit_structure⟩)
        | _, _, _, _ =>
            Outcome.err (Error.IVCProgramError "missing declared identifier")
  else Outcome.panic

/-! ### Merge semantics -/

lemma lookup_map_replace {F : Type} (k : ℕ) (v : F) (w : Witness F) :
    List.lookup k (w.map fun p => if p.1 == k then (k, v) else p) =
      if k ∈ w.map Prod.fst then some v else List.lookup k w := by
  induction w with
  | nil => simp
  | cons p rest ih =>
      by_cases h : p.1 = k
      · have hb : (p.1 == k) = true := beq_iff_eq.2 h
        simp only [List.map_cons, hb, if_true, List.mem_cons]
        rw [lookup_cons, if_pos rfl, if_pos (Or.inl h.symm)]
      · have hb : (p.1 == k) = false := beq_eq_false_iff_ne.2 h
        have hne : k ≠ p.1 := fun hk => h hk.symm
        simp only [List.map_cons, hb, Bool.false_eq_true, if_false,
          List.mem_cons, hne, false_or]
        rw [lookup_cons, if_neg hne, lookup_cons, if_neg hne, ih]

lemma keys_mapInsert_superset {F : Type} (k j : ℕ) (v : F) (w : Witness F)
    (h : j ∈ w.map Prod.fst) : j ∈ (mapInsert k v w).map Prod.fst := by
  rw [mapInsert]
  split
  · rcases List.mem_map.1 h with ⟨p, hp, hpj⟩
    by_cases hpk : p.1 = k
    · refine List.mem_map.2 ⟨(k, v), ?_, by rw [← hpj, hpk]⟩
      refine List.mem_map.2 ⟨p, hp, ?_⟩
      rw [if_pos (beq_iff_eq.2 hpk)]
    · refine List.mem_map.2 ⟨p, List.mem_map.2 ⟨p, hp, ?_⟩, hpj⟩
      rw [if_neg (by simp [hpk])]
  · rw [List.map_append]
    exact List.mem_append_left _ h

lemma lookup_mapInsert_self {F : Type} (k : ℕ) (v : F) (w : Witness F) :
    List.lookup k (mapInsert k v w) = some v := by
  rw [mapInsert]
  by_cases h : w.any (fun p => p.1 == k)
  · rw [if_pos h, lookup_map_replace]
    rcases List.any_eq_true.1 h with ⟨p, hp, hpk⟩
    rw [if_pos
      (List.mem_map.2 ⟨p, hp, beq_iff_eq.1 hpk⟩)]
  · rw [if_neg h, lookup_append]
    have hnone : List.lookup k w = none := by
      rw [lookup_eq_none_iff_keys]
      intro hmem
      rcases List.mem_map.1 hmem with ⟨p, hp, hpk⟩
      exact h (List.any_eq_true.2 ⟨p, hp, beq_iff_eq.2 hpk⟩)
    rw [hnone, Option.none_or, lookup_cons, if_pos rfl]

lemma lookup_map_replace_ne {F : Type} (k j : ℕ) (v : F) (w : Witness F)
    (h : j ≠ k) :
    List.lookup j (w.map fun p => if p.1 == k then (k, v) else p) =
      List.lookup j w := by
  induction w with
  | nil => simp
  | cons p rest ih =>
      by_cases hpk : p.1 = k
      · rw [List.map_cons, if_pos (beq_iff_eq.2 hpk), lookup_cons, if_neg h,
          lookup_cons, if_neg (show j ≠ p.1 by rw [hpk]; exact h), ih]
      · rw [List.map_cons, if_neg (by simp [hpk]), lookup_cons, lookup_cons]
        by_cases hj : j = p.1
        · rw [if_pos hj, if_pos hj]
        · rw [if_neg hj, if_neg hj, ih]

lemma lookup_mapInsert_ne {F : Type} (k j : ℕ) (v : F) (w : Witness F)
    (h : j ≠ k) : List.lookup j (mapInsert k v w) = List.lookup j w := by
  rw [mapInsert]
  by_cases hc : w.any (fun p => p.1 == k)
  · rw [if_pos hc, lookup_map_replace_ne _ _ _ _ h]
  · rw [if_neg hc, lookup_append, lookup_cons, if_neg h]
    simp

lemma lookup_foldl_mapInsert_not_mem {F : Type} (l : List (ℕ × F))
    (m : Witness F) (k : ℕ) (h : k ∉ l.map Prod.fst) :
    List.lookup k (l.foldl (fun acc p => mapInsert p.1 p.2 acc) m) =
      List.lookup k m := by
  induction l generalizing m with
  | nil => rfl
  | cons p rest ih =>
      rw [List.foldl_cons]
      have hk : k ≠ p.1 := fun he =>
        h (by rw [List.map_cons]; exact List.mem_cons.2 (Or.inl he))
      rw [ih _ (fun hm =>
          h (by rw [List.map_cons]; exact List.mem_cons.2 (Or.inr hm))),
        lookup_mapInsert_ne _ _ _ _ hk]

/-- C9: when the public-input witness and the private-input witness passed to
`execute` share a key, the merged assignment `execute` hands to the solver
(built by `mergeInputs`, i.e. `public_input.clone()` extended with
`private_input`) contains the private-input value for that key: the private
entry silently overrides the public one, and no part of `execute` rejects
the overlap (`is_valid_input` inspects only the two key sets). -/
theorem merge_private_overrides {F : Type} (pub priv : Witness F) (k : ℕ)
    (v : F) (hnd : (priv.map Prod.fst).Nodup)
    (hshared : k ∈ pub.map Prod.fst) (hmem : (k, v) ∈ priv) :
    List.lookup k (mergeInputs pub priv) = some v := by
  induction priv generalizing pub with
  | nil => cases hmem
  | cons p rest ih =>
      rw [mergeInputs, List.foldl_cons]
      rw [List.map_cons, List.nodup_cons] at hnd
      rcases List.mem_cons.1 hmem with h | h
      · have hp : p = (k, v) := h.symm
        subst hp
        rw [lookup_foldl_mapInsert_not_mem rest _ k hnd.1]
        exact lookup_mapInsert_self k v pub
      · exact ih (mapInsert p.1 p.2 pub) hnd.2
          (keys_mapInsert_superset p.1 k p.2 pub hshared) h

/-- Witness for `merge_private_overrides` at concrete inputs sharing key
`0`: the merge keeps the private value `2`, not the public value `1`. -/
theorem merge_private_overrides_instance :
    List.lookup 0 (mergeInputs [((0 : ℕ), (1 : ZMod 101))] [(0, 2)]) =
      some 2 :=
  merge_private_overrides [((0 : ℕ), (1 : ZMod 101))] [(0, 2)] 0 2
    (by decide) (by decide) (by decide)

/-- A solver that reports success with an empty assignment (never reached in
the theorem below: `execute` aborts before invoking it). -/
def solverStub : List (Opcode FieldA) → Witness FieldA →
    ACVMStatus × Witness FieldA :=
  fun _ _ => (ACVMStatus.Solved, [])

/-- A circuit structure declaring public input `{0}` and private input
`{1}`. -/
def csMismatch : CircuitStructure FieldB :=
  ⟨[], ⟨⟨{0}, {1}, ∅, ∅⟩, 0, [], "bn254", "0.1"⟩⟩

/-- The iteration state carrying `csMismatch` with an empty current public
input. -/
def ucMismatch : UnexecutedCircuit FieldB := ⟨0, [], csMismatch⟩

/-- C2 (code-bug evidence): at a concrete input on which `is_valid_input`
returns `false` (empty supplied witnesses against declared public inputs
`{0}` and private inputs `{1}`), `execute` ABORTS the process (the failed
`assert!`, `Outcome.panic`) — it does not return the `InvalidInput` error
value the claim and the crate's own error taxonomy prescribe, and so also
returns no execution result, step witness, or next circuit state. -/
theorem execute_invalid_input_aborts :
    is_valid_input csMismatch ([] : Witness FieldB) [] = false ∧
    execute ucMismatch [] solverStub = Outcome.panic := by
  have h : is_valid_input csMismatch ([] : Witness FieldB) [] = false := by
    decide
  exact ⟨h, by simp [execute, ucMismatch, h]⟩

end NoirIVC
